import Mathlib

/-!
A verification development for the `gobounce` debounced file watcher
(`watcher.go`).  The Go source is shallowly embedded: pure string
manipulation becomes functions on `String`/`List Char`, the debounce
engine's mutable state (`fileDebounce`/`folderDebounce` maps, the
per-path timer goroutines) becomes explicit state passed through step
functions, real time becomes `Nat` instants, and the external
collaborators (`path/filepath`, `os`, the radovskyb watcher) become
explicit function parameters or environment records.
-/

namespace Gobounce

/-! ## Go string primitives (modelled on `List Char`)

`strings.Index`, `strings.Contains`, `strings.Trim`, `strings.HasPrefix`
from the Go standard library, specialised to the ways `watcher.go` uses
them.  Go strings are byte slices; all strings the source manipulates
are ASCII, so `List Char` is a faithful carrier. -/

/-- `startsWithL s p`: does `s` start with `p`?  (Go `strings.HasPrefix`.) -/
def startsWithL : List Char → List Char → Bool
  | _, [] => true
  | [], _ :: _ => false
  | c :: s, d :: p => c = d && startsWithL s p

/-- `indexOfL pat s`: index of the first occurrence of `pat` in `s`,
`none` if absent.  (Go `strings.Index`, with `-1` rendered as `none`.) -/
def indexOfL (pat : List Char) : List Char → Option Nat
  | [] => if startsWithL [] pat then some 0 else none
  | c :: rest =>
    if startsWithL (c :: rest) pat then some 0
    else (indexOfL pat rest).map (· + 1)

/-- Go `strings.Contains s sub` = `strings.Index s sub >= 0`. -/
def goContains (s sub : String) : Bool :=
  (indexOfL sub.data s.data).isSome

/-- `pat` occurs as a contiguous substring of `hay`. -/
def IsSub (pat hay : List Char) : Prop :=
  ∃ l r, hay = l ++ pat ++ r

/-! ### Correctness of the scanning primitives -/

theorem startsWithL_iff (s p : List Char) :
    startsWithL s p = true ↔ ∃ r, s = p ++ r := by
  induction p generalizing s with
  | nil => simp [startsWithL]
  | cons d p ih =>
    cases s with
    | nil => simp [startsWithL]
    | cons c s =>
      simp only [startsWithL, Bool.and_eq_true, decide_eq_true_eq, ih]
      constructor
      · rintro ⟨rfl, r, rfl⟩; exact ⟨r, rfl⟩
      · rintro ⟨r, h⟩
        injection h with h1 h2
        exact ⟨h1, r, h2⟩

theorem startsWithL_ne_nil {s : List Char} {c : Char} {p : List Char}
    (h : startsWithL s (c :: p) = true) : s ≠ [] := by
  cases s with
  | nil => simp [startsWithL] at h
  | cons _ _ => simp

theorem indexOfL_some {pat s : List Char} {i : Nat}
    (h : indexOfL pat s = some i) :
    startsWithL (s.drop i) pat = true ∧
      ∀ j, j < i → startsWithL (s.drop j) pat = false := by
  induction s generalizing i with
  | nil =>
    simp only [indexOfL] at h
    split at h
    · rename_i hs
      injection h with h; subst h
      exact ⟨hs, by omega⟩
    · exact absurd h (by simp)
  | cons c rest ih =>
    simp only [indexOfL] at h
    split at h
    · rename_i hs
      injection h with h; subst h
      exact ⟨hs, by omega⟩
    · rename_i hs
      cases hrec : indexOfL pat rest with
      | none => rw [hrec] at h; simp at h
      | some i' =>
        rw [hrec] at h
        simp only [Option.map_some'] at h
        injection h with h; subst h
        obtain ⟨h1, h2⟩ := ih hrec
        refine ⟨h1, ?_⟩
        intro j hj
        cases j with
        | zero => simpa using Bool.not_eq_true _ ▸ (by simpa using hs)
        | succ j' => exact h2 j' (by omega)

theorem indexOfL_none {pat s : List Char}
    (h : indexOfL pat s = none) :
    ∀ i, startsWithL (s.drop i) pat = false := by
  induction s with
  | nil =>
    intro i
    simp only [indexOfL] at h
    split at h
    · simp at h
    · rename_i hs
      simpa [List.drop_nil] using (by simpa using hs)
  | cons c rest ih =>
    intro i
    simp only [indexOfL] at h
    split at h
    · simp at h
    · rename_i hs
      cases hrec : indexOfL pat rest with
      | some _ => rw [hrec] at h; simp at h
      | none =>
        cases i with
        | zero => simpa using (by simpa using hs)
        | succ i' => exact ih hrec i'

theorem indexOfL_le_of_startsWith {pat s : List Char} {i : Nat}
    (h : startsWithL (s.drop i) pat = true) :
    ∃ i0, indexOfL pat s = some i0 ∧ i0 ≤ i := by
  induction s generalizing i with
  | nil =>
    refine ⟨0, ?_, by omega⟩
    simp only [List.drop_nil] at h
    simp [indexOfL, h]
  | cons c rest ih =>
    by_cases hs : startsWithL (c :: rest) pat = true
    · exact ⟨0, by simp [indexOfL, hs], by omega⟩
    · cases i with
      | zero => simp only [List.drop_zero] at h; exact absurd h hs
      | succ i' =>
        simp only [List.drop_succ_cons] at h
        obtain ⟨i0, hi0, hle⟩ := ih h
        refine ⟨i0 + 1, ?_, by omega⟩
        simp [indexOfL, hs, hi0]

theorem isSub_iff_exists_drop (pat s : List Char) :
    IsSub pat s ↔ ∃ i, startsWithL (s.drop i) pat = true := by
  constructor
  · rintro ⟨l, r, rfl⟩
    refine ⟨l.length, ?_⟩
    rw [startsWithL_iff]
    exact ⟨r, by simp⟩
  · rintro ⟨i, h⟩
    rw [startsWithL_iff] at h
    obtain ⟨r, hr⟩ := h
    exact ⟨s.take i, r, by rw [List.append_assoc, ← hr, List.take_append_drop]⟩

theorem goContains_iff (s sub : String) :
    goContains s sub = true ↔ IsSub sub.data s.data := by
  rw [goContains, isSub_iff_exists_drop]
  constructor
  · intro h
    cases hx : indexOfL sub.data s.data with
    | none => rw [hx] at h; simp at h
    | some i => exact ⟨i, (indexOfL_some hx).1⟩
  · rintro ⟨i, hi⟩
    obtain ⟨i0, hi0, _⟩ := indexOfL_le_of_startsWith hi
    simp [hi0]

/-! ## Event classifier: `getWatcherPath` (watcher.go lines 250-258)

Rename/Move events from the raw watcher carry a path of the form
`"fromPath -> toPath"`; `getWatcherPath` keeps only the part after the
first `"-> "` marker and leaves every other path unchanged. -/

/-- The rename/move marker `"-> "` used by the raw watcher. -/
def arrowMarker : String := "-> "

/-- Embeds `getWatcherPath` (watcher.go lines 250-258):
`strings.Index(path, "-> ")`; on a hit return `path[toPathIndex+3:]`,
otherwise return `path` unchanged. -/
def getWatcherPath (path : String) : String :=
  match indexOfL arrowMarker.data path.data with
  | some i => ⟨path.data.drop (i + 3)⟩
  | none => path

/-! ## Folder exclusion matcher (watcher.go lines 124-135 and 149-157) -/

/-- A folder-separator character as used by Go `strings.Trim(folder, sepCutset)`
with the cutset of forward and backward slashes. -/
def isSepChar (c : Char) : Bool := c = '/' || c = '\\'

/-- Go `strings.Trim(s, cutset)` for the slash cutset: remove leading and
trailing separator characters. -/
def goTrimSep (s : String) : String :=
  ⟨((s.data.dropWhile isSepChar).reverse.dropWhile isSepChar).reverse⟩

/-- Embeds `prepareFolders` (watcher.go lines 124-135): trim separators from
each pattern, drop patterns that become empty, and wrap each survivor in a
leading and trailing `filepath.Separator` (modelled for Unix: `'/'`). -/
def prepareFolders : List String → List String
  | [] => []
  | f :: rest =>
    let t := goTrimSep f
    if t = "" then prepareFolders rest
    else ("/" ++ t ++ "/") :: prepareFolders rest

/-- Embeds `isExcludedFolder` (watcher.go lines 149-157): wrap the path in
separators and report whether any (already prepared) exclusion pattern is a
substring of the wrapped path. -/
def isExcludedFolder (folderExclusions : List String) (path : String) : Bool :=
  folderExclusions.any (fun excludedFolder =>
    goContains ("/" ++ path ++ "/") excludedFolder)

/-! ## Hidden-folder check (watcher.go lines 137-147)

`filepath.Base` and `filepath.Abs` are external library calls; `goBase`
implements `filepath.Base`'s Unix semantics, while `filepath.Abs` stays an
explicit function parameter `absOf`. -/

/-- `filepath.Base` for Unix paths: empty path gives `"."`, trailing slashes
are discarded, the last path element is returned, and an all-slash path gives
`"/"`. -/
def goBase (path : String) : String :=
  if path = "" then "."
  else
    let l := (path.data.reverse.dropWhile (· = '/')).reverse
    let b := (l.reverse.takeWhile (· ≠ '/')).reverse
    if b = [] then "/" else ⟨b⟩

/-- Embeds `isHiddenFolder` (watcher.go lines 137-147): the base name of the
path (resolved through `filepath.Abs` when it is `"."`) starts with a dot. -/
def isHiddenFolder (absOf : String → String) (path : String) : Bool :=
  let dir := goBase path
  let dir := if dir = "." then goBase (absOf path) else dir
  startsWithL dir.data ['.']

/-! ## Engine configuration and state

`Options` mirrors the `Options` struct (watcher.go lines 32-38).  `GoEnv`
collects the external collaborators the debounce path touches:
`filepath.Abs`, `filepath.Dir`, `os.Stat` existence, and the success of
`watcher.Add` (whose result the source discards). -/

structure Options where
  rootFolders : List String
  folderExclusions : List String
  includeHidden : Bool
  excludeSubdirs : Bool
  followNewFolders : Bool
deriving DecidableEq

structure GoEnv where
  /-- `filepath.Abs`; the source treats an empty result as failure. -/
  absOf : String → String
  /-- `filepath.Dir`. -/
  dirOf : String → String
  /-- `os.Stat` succeeding (i.e. `os.IsNotExist(err)` is false). -/
  statExists : String → Bool
  /-- whether `watcher.Add` would succeed on a path (result discarded). -/
  addOk : String → Bool

/-- Raw watcher operation tags (radovskyb `watcher.Op`). -/
inductive Op where
  | create | write | remove | rename | chmod | move
deriving DecidableEq

/-- A raw event as consumed by `debounce`: the raw path, the operation and
`e.IsDir()`. -/
structure Event where
  path : String
  op : Op
  isDir : Bool
deriving DecidableEq

/-- The debounce engine's mutable state: the two path-keyed timer maps
(deadline instants stand for the `*time.Timer` values) and the set of live
timer goroutines spawned by `debounceItem` (`true` marks the folder map). -/
structure EngineState where
  fileDebounce : List (String × Nat)
  folderDebounce : List (String × Nat)
  liveTimers : List (Bool × String)
deriving DecidableEq

/-- The engine state right after `New`: both maps empty, no timers. -/
def initEngineState : EngineState := ⟨[], [], []⟩

/-! ### Association-list operations standing for the Go maps -/

/-- Go map lookup `m[q]`. -/
def aLookup {α : Type} : List (String × α) → String → Option α
  | [], _ => none
  | (k, v) :: m, q => if k = q then some v else aLookup m q

/-- Go map assignment `m[q] = v` (update in place, else add). -/
def aInsert {α : Type} : List (String × α) → String → α → List (String × α)
  | [], q, v => [(q, v)]
  | (k, w) :: m, q, v => if k = q then (k, v) :: m else (k, w) :: aInsert m q v

/-- Go map `delete(m, q)`. -/
def aErase {α : Type} : List (String × α) → String → List (String × α)
  | [], _ => []
  | (k, w) :: m, q => if k = q then aErase m q else (k, w) :: aErase m q

/-- The key set of a map, in insertion order. -/
def aKeys {α : Type} (m : List (String × α)) : List String := m.map Prod.fst

/-! ## The debounce coalescer (watcher.go lines 204-248) -/

/-- Embeds `debounceItem` (watcher.go lines 225-234) acting on one map at
instant `t`: a path with no entry gets a fresh timer (deadline `t + D`) and a
newly spawned waiter goroutine; a path with an entry has its existing timer
reset to deadline `t + D` and no new goroutine is created. -/
def debounceItem (D t : Nat) (isFolder : Bool) (path : String)
    (m : List (String × Nat)) (live : List (Bool × String)) :
    List (String × Nat) × List (Bool × String) :=
  match aLookup m path with
  | none => (aInsert m path (t + D), (isFolder, path) :: live)
  | some _ => (aInsert m path (t + D), live)

/-- Embeds `debounce` (watcher.go lines 204-223) at instant `t`.  Returns the
new engine state together with the list of paths passed to `watcher.Add`
(the Dynamic Observation Extender registrations; their error is discarded by
the source, so `env.addOk` is deliberately unused). -/
def debounceGo (env : GoEnv) (opts : Options) (D t : Nat)
    (s : EngineState) (e : Event) : EngineState × List String :=
  let path := env.absOf (getWatcherPath e.path)
  if path = "" then (s, [])
  else
    let adds :=
      if (e.op = .create || e.op = .move || e.op = .rename) && e.isDir &&
          opts.followNewFolders && !isExcludedFolder opts.folderExclusions path &&
          (opts.includeHidden || !isHiddenFolder env.absOf path) then [path]
      else []
    if e.isDir then
      let r := debounceItem D t true path s.folderDebounce s.liveTimers
      ({ s with folderDebounce := r.1, liveTimers := r.2 }, adds)
    else
      let r1 := debounceItem D t false path s.fileDebounce s.liveTimers
      let r2 := debounceItem D t true (env.dirOf path) s.folderDebounce r1.2
      (⟨r1.1, r2.1, r2.2⟩, adds)

/-- Embeds the body of `waitDebounceTimer` after the timer fires
(watcher.go lines 236-248): delete the path's entry from the map, then
publish the path iff it still exists on disk (`os.Stat` not-exist check). -/
def waitDebounceTimer (statExists : String → Bool)
    (m : List (String × Nat)) (path : String) :
    List (String × Nat) × Option String :=
  (aErase m path, if statExists path then some path else none)

/-- One step of the engine: either the dispatch goroutine handles a raw event
at instant `t`, or a live timer goroutine for `(isFolder, path)` fires. -/
inductive GStep where
  | ev (t : Nat) (e : Event)
  | fire (isFolder : Bool) (path : String)
deriving DecidableEq

/-- A `fire` step is only available for a live timer goroutine. -/
def gAllowed (s : EngineState) : GStep → Bool
  | .ev _ _ => true
  | .fire f p => (f, p) ∈ s.liveTimers

/-- Applies a step, returning the new state, the `watcher.Add` registrations
and the published notification (`(isFolder, path)`), if any. -/
def gApply (env : GoEnv) (opts : Options) (D : Nat) (s : EngineState) :
    GStep → EngineState × List String × Option (Bool × String)
  | .ev t e =>
    let r := debounceGo env opts D t s e
    (r.1, r.2, none)
  | .fire f p =>
    let live := s.liveTimers.filter (fun x => x ≠ (f, p))
    if f then
      let r := waitDebounceTimer env.statExists s.folderDebounce p
      ({ s with folderDebounce := r.1, liveTimers := live }, [],
        r.2.map ((true, ·)))
    else
      let r := waitDebounceTimer env.statExists s.fileDebounce p
      ({ s with fileDebounce := r.1, liveTimers := live }, [],
        r.2.map ((false, ·)))

/-! ## Lifecycle: `Close` (watcher.go lines 198-202) -/

/-- Open/closed status of the four channels of a `Filewatcher`
(watcher.go lines 17-30). -/
structure ChanState where
  fileChangedClosed : Bool
  folderChangedClosed : Bool
  errorClosed : Bool
  watcherClosed : Bool
deriving DecidableEq

/-- All channels open, as `New` creates them (watcher.go lines 58-69). -/
def newChanState : ChanState := ⟨false, false, false, false⟩

/-- Embeds `Close` (watcher.go lines 198-202): `watcher.Close()`,
`close(FileChanged)`, `close(FolderChanged)` — and nothing else. -/
def closeGo (c : ChanState) : ChanState :=
  { c with watcherClosed := true, fileChangedClosed := true,
           folderChangedClosed := true }

/-! ## Timed single-key semantics of the debounce cycle

The engine treats each key of each debounce map independently:
`debounceItem` (watcher.go lines 225-234) touches only its own key, and the
waiter goroutine `waitDebounceTimer` (lines 236-248) deletes only its own
key.  The following semantics projects the life of one key of one map onto
a `Nat` timeline: the key's state is `Option Nat` — `some d` when a timer
with deadline `d` is pending (`time.NewTimer(D)`/`timer.Reset(D)` at
instant `t` both yield deadline `t + D`), `none` otherwise.  A `fire t ex`
step models the waiter goroutine running at instant `t ≥ d`, with `ex` the
result of the `os.Stat` existence check. -/

/-- A timed step for a single debounce key: an event handled by
`debounceItem` at instant `t`, or the timer goroutine firing at instant `t`
with disk-existence result `ex`. -/
inductive KStep where
  | ev (t : Nat)
  | fire (t : Nat) (ex : Bool)
deriving DecidableEq

/-- The instant at which a step happens. -/
def KStep.time : KStep → Nat
  | .ev t => t
  | .fire t _ => t

/-- Effect of a step on the key's pending deadline: an event arms or resets
the timer to `t + D`; a firing removes the entry. -/
def kApply (D : Nat) (_e : Option Nat) : KStep → Option Nat
  | .ev t => some (t + D)
  | .fire _ _ => none

/-- A step is allowed: events always; a firing only when a timer is pending
and its deadline has been reached (a `time.Timer` never fires early). -/
def kAllowed (e : Option Nat) : KStep → Bool
  | .ev _ => true
  | .fire t _ => match e with
    | some d => d ≤ t
    | none => false

/-- A whole trace is allowed from initial key state `e`. -/
def kValid (D : Nat) : Option Nat → List KStep → Bool
  | _, [] => true
  | e, s :: tr => kAllowed e s && kValid D (kApply D e s) tr

/-- The key state after running a trace. -/
def kFinal (D : Nat) : Option Nat → List KStep → Option Nat
  | e, [] => e
  | e, s :: tr => kFinal D (kApply D e s) tr

/-- Step instants never decrease along the trace. -/
def kMono : List KStep → Bool
  | [] => true
  | [_] => true
  | a :: b :: tr => a.time ≤ b.time && kMono (b :: tr)

/-- Instants of the event steps, in trace order. -/
def evTimes : List KStep → List Nat
  | [] => []
  | .ev t :: tr => t :: evTimes tr
  | .fire _ _ :: tr => evTimes tr

/-- Instants at which a notification is actually published: firings whose
existence check succeeded (`waitDebounceTimer` suppresses the rest). -/
def pubTimes : List KStep → List Nat
  | [] => []
  | .ev _ :: tr => pubTimes tr
  | .fire t ex :: tr => (if ex then [t] else []) ++ pubTimes tr

/-- Every firing in the trace found the path still on disk. -/
def allFiresExist : List KStep → Bool
  | [] => true
  | .ev _ :: tr => allFiresExist tr
  | .fire _ ex :: tr => ex && allFiresExist tr

/-- Consecutive events arrive strictly less than `D` apart. -/
def gapsLt (D : Nat) : List Nat → Bool
  | [] => true
  | [_] => true
  | a :: b :: l => b < a + D && gapsLt D (b :: l)

/-- Every pending event comes strictly before the then-current deadline:
`gapsFrom d ts` says the next event (if any) arrives before `d`, and
afterwards before its own refreshed deadline. -/
def gapsFrom (D d : Nat) : List Nat → Bool
  | [] => true
  | a :: l => a < d && gapsFrom D (a + D) l

/-! ## Folder discovery (watcher.go lines 88-122) over an abstract filesystem -/

/-- The filesystem as seen by discovery: `os.Stat` (`some isDir` on success,
`none` on error) and `os.ReadDir` (`some` entries `(name, isDir)` on
success, `none` on error), plus `filepath.Abs` for the hidden check. -/
structure FileSys where
  stat : String → Option Bool
  readDir : String → Option (List (String × Bool))
  absOf : String → String

/-- `filepath.Join(path, name)` for Unix, as used with non-empty clean
segments from a directory listing. -/
def joinPath (path name : String) : String := path ++ "/" ++ name

/-- The body of `addDirs` (watcher.go lines 104-111), with the recursive
descent `getFolders` abstracted as `sub`: prune non-directories, hidden
folders (unless included) and excluded folders together with their whole
subtree; otherwise list the path followed by its recursively discovered
subfolders. -/
def addDirsStep (opts : Options) (fs : FileSys) (sub : String → List String)
    (path : String) (folders : List String) (isDir : Bool) : List String :=
  if !isDir || (!opts.includeHidden && isHiddenFolder fs.absOf path) ||
      isExcludedFolder opts.folderExclusions path then folders
  else folders ++ [path] ++ sub path

/-- Embeds `getFolders` (watcher.go lines 113-122): read the directory —
note the source discards the `os.ReadDir` error, so a failed read behaves
like an empty directory — and fold `addDirs` over the entries.  `fuel`
bounds the recursion depth (the Go code recurses on the finite on-disk
tree). -/
def getFoldersF (opts : Options) (fs : FileSys) : Nat → String → List String
  | 0, _ => []
  | fuel + 1, path =>
    ((fs.readDir path).getD []).foldl
      (fun folders item =>
        addDirsStep opts fs (getFoldersF opts fs fuel)
          (joinPath path item.1) folders item.2)
      []

/-- `addDirs` at recursion depth `fuel`. -/
def addDirsF (opts : Options) (fs : FileSys) (fuel : Nat) (path : String)
    (folders : List String) (isDir : Bool) : List String :=
  addDirsStep opts fs (getFoldersF opts fs fuel) path folders isDir

/-- Embeds the root loop of `getWatchFolders` (watcher.go lines 93-101):
`os.Stat` each root, abort with the error on failure, otherwise feed it to
`addDirs`. -/
def watchRootsF (opts : Options) (fs : FileSys) (fuel : Nat) :
    List String → List String → Except Unit (List String)
  | [], acc => .ok acc
  | r :: rs, acc =>
    match fs.stat r with
    | none => .error ()
    | some isDir => watchRootsF opts fs fuel rs (addDirsF opts fs fuel r acc isDir)

/-- Embeds `getWatchFolders` (watcher.go lines 88-102): with
`ExcludeSubdirs` the roots are returned untouched and unchecked; otherwise
the roots are statted and recursively expanded. -/
def getWatchFoldersF (opts : Options) (fs : FileSys) (fuel : Nat) :
    Except Unit (List String) :=
  if opts.excludeSubdirs then .ok opts.rootFolders
  else watchRootsF opts fs fuel opts.rootFolders []

/-- Embeds the construction path of `New` relevant to discovery
(watcher.go lines 74-85): prepare the exclusion patterns, run discovery
(aborting on its error), then register every discovered folder, aborting if
any `watcher.Add` fails. -/
def newGo (opts : Options) (fs : FileSys) (fuel : Nat)
    (addOk : String → Bool) : Except Unit (List String) :=
  let opts := { opts with folderExclusions := prepareFolders opts.folderExclusions }
  match getWatchFoldersF opts fs fuel with
  | .error e => .error e
  | .ok watchFolders =>
    if watchFolders.all addOk then .ok watchFolders else .error ()

/-! ## `WatchFolders` (watcher.go lines 160-177) -/

/-- Embeds the loop of `WatchFolders`: for each name the raw watcher reports
as watched, skip it when it stats as a directory, otherwise record
`filepath.Dir` of it, first occurrence only (the `folders` map guards the
slice). -/
def collectDirs (statOf : String → Option Bool) (dirOf : String → String) :
    List String → List String → List String
  | [], acc => acc
  | filename :: rest, acc =>
    if (statOf filename).getD false then collectDirs statOf dirOf rest acc
    else
      let dir := dirOf filename
      if dir ∈ acc then collectDirs statOf dirOf rest acc
      else collectDirs statOf dirOf rest (acc ++ [dir])

/-- Embeds `WatchFolders`: collect the deduplicated parent directories of
the watched non-directory names, then `sort.Strings` the slice (modelled by
insertion sort, which likewise produces a `≤`-sorted permutation). -/
def watchFoldersGo (statOf : String → Option Bool) (dirOf : String → String)
    (watched : List String) : List String :=
  List.insertionSort (· ≤ ·) (collectDirs statOf dirOf watched [])

/-! ## Claim theorems -/

/-- C5: the event classifier extracts the substring after the first
occurrence of the arrow marker `"-> "` when the raw path contains one (as
rename/move paths do), and returns every other raw path unchanged; in
particular `"/a/old -> /a/new"` classifies to `"/a/new"` and `"/a/file"` to
itself.  The marker is 3 characters, so the extracted suffix starts at
`i + 3` for first-occurrence position `i`. -/
theorem c5_classifier_arrow_marker (p : String) :
    ((∀ i, i < p.data.length →
        startsWithL (p.data.drop i) arrowMarker.data = false) →
      getWatcherPath p = p) ∧
    (∀ i, startsWithL (p.data.drop i) arrowMarker.data = true →
      (∀ j, j < i → startsWithL (p.data.drop j) arrowMarker.data = false) →
      getWatcherPath p = ⟨p.data.drop (i + 3)⟩) ∧
    getWatcherPath "/a/old -> /a/new" = "/a/new" ∧
    getWatcherPath "/a/file" = "/a/file" := by
  refine ⟨?_, ?_, by decide, by decide⟩
  · intro h
    unfold getWatcherPath
    cases hx : indexOfL arrowMarker.data p.data with
    | none => rfl
    | some i =>
      have h1 := (indexOfL_some hx).1
      have hne : p.data.drop i ≠ [] := startsWithL_ne_nil h1
      have hlt : i < p.data.length := by
        by_contra hle
        exact hne (List.drop_eq_nil_of_le (by omega))
      rw [h i hlt] at h1
      exact absurd h1 (by simp)
  · intro i hi hmin
    obtain ⟨i0, hi0, hle⟩ := indexOfL_le_of_startsWith hi
    have : i0 = i := by
      rcases Nat.lt_or_ge i0 i with hlt | hge
      · have := hmin i0 hlt
        have h1 := (indexOfL_some hi0).1
        rw [this] at h1
        exact absurd h1 (by simp)
      · omega
    subst this
    unfold getWatcherPath
    rw [hi0]

/-- C5 witness: the theorem applied at the two concrete inputs, with the
first-occurrence position `7` for the rename-encoded path. -/
theorem c5_classifier_arrow_marker_witness :
    getWatcherPath "/a/old -> /a/new" = ⟨"/a/old -> /a/new".data.drop 10⟩ ∧
    getWatcherPath "/a/file" = "/a/file" :=
  ⟨(c5_classifier_arrow_marker "/a/old -> /a/new").2.1 7 (by decide)
      (by decide),
    (c5_classifier_arrow_marker "/a/file").1 (by decide)⟩

/-- C10: `Close` closes the `FileChanged` and `FolderChanged` channels and
the underlying raw watcher, but never touches the `Error` channel: the
error stream's status is whatever it was before, hence still open after
closing a freshly constructed watcher. -/
theorem c10_close_leaves_error_open (c : ChanState) :
    (closeGo c).fileChangedClosed = true ∧
    (closeGo c).folderChangedClosed = true ∧
    (closeGo c).watcherClosed = true ∧
    (closeGo c).errorClosed = c.errorClosed ∧
    (closeGo newChanState).errorClosed = false :=
  ⟨rfl, rfl, rfl, rfl, rfl⟩

/-- C2: when a debounce timer expires, the path's entry is removed from its
map, and the notification is published iff the path still exists on disk —
in particular a path deleted before its timer fires publishes nothing. -/
theorem c2_fire_removes_and_checks_disk (statExists : String → Bool)
    (m : List (String × Nat)) (path : String) :
    (waitDebounceTimer statExists m path).1 = aErase m path ∧
    (statExists path = false → (waitDebounceTimer statExists m path).2 = none) ∧
    (statExists path = true →
      (waitDebounceTimer statExists m path).2 = some path) := by
  refine ⟨rfl, ?_, ?_⟩ <;> intro h <;> simp [waitDebounceTimer, h]

/-- C2 witness: a deleted path (`statExists` false) fires into a no-op. -/
theorem c2_fire_removes_and_checks_disk_witness :
    (waitDebounceTimer (fun _ => false) [("/a/f", 5)] "/a/f").2 = none :=
  (c2_fire_removes_and_checks_disk (fun _ => false) [("/a/f", 5)] "/a/f").2.1
    rfl

/-- C3: for a classified event with a non-empty canonical path: a directory
event arms/resets only the directory-debounce entry for that path and
leaves the file map untouched; a file event arms/resets the file-debounce
entry for the path and the directory-debounce entry for the path's parent
directory (`filepath.Dir`). -/
theorem c3_event_arms_expected_entries (env : GoEnv) (opts : Options)
    (D t : Nat) (s : EngineState) (e : Event)
    (hne : env.absOf (getWatcherPath e.path) ≠ "") :
    (e.isDir = true →
      (debounceGo env opts D t s e).1.folderDebounce =
          aInsert s.folderDebounce (env.absOf (getWatcherPath e.path)) (t + D) ∧
      (debounceGo env opts D t s e).1.fileDebounce = s.fileDebounce) ∧
    (e.isDir = false →
      (debounceGo env opts D t s e).1.fileDebounce =
          aInsert s.fileDebounce (env.absOf (getWatcherPath e.path)) (t + D) ∧
      (debounceGo env opts D t s e).1.folderDebounce =
          aInsert s.folderDebounce
            (env.dirOf (env.absOf (getWatcherPath e.path))) (t + D)) := by
  constructor <;> intro hd <;>
    simp only [debounceGo, if_neg hne, hd, if_true, if_false, debounceItem] <;>
    constructor <;>
    cases h : aLookup s.folderDebounce (env.absOf (getWatcherPath e.path)) <;>
    cases h2 : aLookup s.fileDebounce (env.absOf (getWatcherPath e.path)) <;>
    cases h3 : aLookup s.folderDebounce
      (env.dirOf (env.absOf (getWatcherPath e.path))) <;>
    simp_all

/-- A concrete external environment for witnesses: `filepath.Abs` is the
identity, every path's parent is `"/a"`, every path exists, every
registration succeeds. -/
def envW : GoEnv :=
  { absOf := fun p => p, dirOf := fun _ => "/a",
    statExists := fun _ => true, addOk := fun _ => true }

/-- Concrete options for witnesses. -/
def optsW : Options :=
  { rootFolders := ["/a"], folderExclusions := [], includeHidden := false,
    excludeSubdirs := false, followNewFolders := true }

/-- C3 witness: a file event on `"/a/f"` arms the file entry for `"/a/f"`
and the folder entry for its parent `"/a"`. -/
theorem c3_event_arms_expected_entries_witness :
    (debounceGo envW optsW 2 0 initEngineState
        ⟨"/a/f", Op.write, false⟩).1.fileDebounce =
      aInsert initEngineState.fileDebounce
        (envW.absOf (getWatcherPath "/a/f")) (0 + 2) ∧
    (debounceGo envW optsW 2 0 initEngineState
        ⟨"/a/f", Op.write, false⟩).1.folderDebounce =
      aInsert initEngineState.folderDebounce
        (envW.dirOf (envW.absOf (getWatcherPath "/a/f"))) (0 + 2) :=
  (c3_event_arms_expected_entries envW optsW 2 0 initEngineState
    ⟨"/a/f", Op.write, false⟩ (by decide)).2 rfl

/-- C9: with follow-new-folders enabled, a create/move/rename event whose
resulting canonical path is a directory, not excluded and not hidden
(unless hidden inclusion is on) registers exactly that path with the raw
watcher; and since the source discards the `watcher.Add` error, the
outcome of the registration has no effect whatsoever on the step's result
— no error is surfaced and the state is the same whether `Add` succeeds
or fails. -/
theorem c9_follow_new_folders_registration (env : GoEnv) (opts : Options)
    (D t : Nat) (s : EngineState) (e : Event)
    (hne : env.absOf (getWatcherPath e.path) ≠ "")
    (hop : e.op = Op.create ∨ e.op = Op.move ∨ e.op = Op.rename)
    (hdir : e.isDir = true)
    (hfollow : opts.followNewFolders = true)
    (hexcl : isExcludedFolder opts.folderExclusions
        (env.absOf (getWatcherPath e.path)) = false)
    (hhid : opts.includeHidden = true ∨
      isHiddenFolder env.absOf (env.absOf (getWatcherPath e.path)) = false) :
    (debounceGo env opts D t s e).2 = [env.absOf (getWatcherPath e.path)] ∧
    ∀ g : String → Bool,
      debounceGo { env with addOk := g } opts D t s e =
        debounceGo env opts D t s e := by
  refine ⟨?_, fun g => rfl⟩
  have hcond : ((e.op = Op.create || e.op = Op.move || e.op = Op.rename) &&
      e.isDir && opts.followNewFolders &&
      !isExcludedFolder opts.folderExclusions
        (env.absOf (getWatcherPath e.path)) &&
      (opts.includeHidden ||
        !isHiddenFolder env.absOf (env.absOf (getWatcherPath e.path)))) =
      true := by
    rcases hop with h | h | h <;> rcases hhid with h2 | h2 <;>
      simp [h, h2, hdir, hfollow, hexcl]
  rw [hdir] at hcond
  simp only [debounceGo, if_neg hne, hdir, hcond, if_true]

/-- C9 witness: a create event for directory `"/d"` with the options of
`optsW` registers `"/d"`, independently of registration success. -/
theorem c9_follow_new_folders_registration_witness :
    (debounceGo envW optsW 2 0 initEngineState
        ⟨"/d", Op.create, true⟩).2 = [envW.absOf (getWatcherPath "/d")] ∧
    ∀ g : String → Bool,
      debounceGo { envW with addOk := g } optsW 2 0 initEngineState
          ⟨"/d", Op.create, true⟩ =
        debounceGo envW optsW 2 0 initEngineState ⟨"/d", Op.create, true⟩ :=
  c9_follow_new_folders_registration envW optsW 2 0 initEngineState
    ⟨"/d", Op.create, true⟩ (by decide) (Or.inl rfl) rfl rfl (by decide)
    (Or.inr (by decide))

/-- C7: a path is excluded iff some prepared pattern — separators trimmed,
empty patterns dropped, survivors wrapped in separators — is a substring
of the path wrapped in separators; consequently the pattern `"exclude"`
matches a path with a segment named exactly `exclude` but matches neither
`"excludeFoo"` nor `"fooexclude"`. -/
theorem c7_exclusion_is_segment_substring (pats : List String) (path : String) :
    (isExcludedFolder (prepareFolders pats) path = true ↔
      ∃ q ∈ prepareFolders pats, IsSub q.data ("/" ++ path ++ "/").data) ∧
    isExcludedFolder (prepareFolders ["exclude"]) "a/exclude/b" = true ∧
    isExcludedFolder (prepareFolders ["exclude"]) "excludeFoo" = false ∧
    isExcludedFolder (prepareFolders ["exclude"]) "fooexclude" = false := by
  refine ⟨?_, by decide, by decide, by decide⟩
  rw [isExcludedFolder, List.any_eq_true]
  constructor
  · rintro ⟨q, hq, hc⟩
    exact ⟨q, hq, (goContains_iff _ _).1 hc⟩
  · rintro ⟨q, hq, hs⟩
    exact ⟨q, hq, (goContains_iff _ _).2 hs⟩

/-- C7 witness: the pattern list `["exclude"]` excludes `"a/exclude/b"`
because the normalized pattern occurs inside the wrapped path. -/
theorem c7_exclusion_is_segment_substring_witness :
    ∃ q ∈ prepareFolders ["exclude"],
      IsSub q.data ("/" ++ "a/exclude/b" ++ "/").data :=
  (c7_exclusion_is_segment_substring ["exclude"] "a/exclude/b").1.mp
    (by decide)

/-! ### Lemmas about `collectDirs` -/

theorem collectDirs_nodup (statOf : String → Option Bool)
    (dirOf : String → String) (l : List String) :
    ∀ acc : List String, acc.Nodup →
      (collectDirs statOf dirOf l acc).Nodup := by
  induction l with
  | nil => intro acc h; simpa [collectDirs]
  | cons f rest ih =>
    intro acc h
    simp only [collectDirs]
    split
    · exact ih acc h
    · split
      · exact ih acc h
      · rename_i hmem
        refine ih _ (List.Nodup.append h (List.nodup_singleton _) ?_)
        intro a ha hb
        simp only [List.mem_singleton] at hb
        subst hb
        exact hmem ha

theorem collectDirs_mem (statOf : String → Option Bool)
    (dirOf : String → String) (l : List String) :
    ∀ (acc : List String) (d : String),
      d ∈ collectDirs statOf dirOf l acc ↔
        d ∈ acc ∨ ∃ f ∈ l, (statOf f).getD false = false ∧ dirOf f = d := by
  induction l with
  | nil => intro acc d; simp [collectDirs]
  | cons f rest ih =>
    intro acc d
    simp only [collectDirs]
    split
    · rename_i hstat
      rw [ih]
      simp only [List.mem_cons]
      constructor
      · rintro (h | ⟨g, hg, hp⟩)
        · exact Or.inl h
        · exact Or.inr ⟨g, Or.inr hg, hp⟩
      · rintro (h | ⟨g, (rfl | hg), hp⟩)
        · exact Or.inl h
        · rw [hstat] at hp; simp at hp
        · exact Or.inr ⟨g, hg, hp⟩
    · rename_i hstat
      rw [Bool.not_eq_true] at hstat
      split
      · rename_i hmem
        rw [ih]
        simp only [List.mem_cons]
        constructor
        · rintro (h | ⟨g, hg, hp⟩)
          · exact Or.inl h
          · exact Or.inr ⟨g, Or.inr hg, hp⟩
        · rintro (h | ⟨g, (rfl | hg), hp⟩)
          · exact Or.inl h
          · rw [← hp.2]; exact Or.inl hmem
          · exact Or.inr ⟨g, hg, hp⟩
      · rw [ih]
        simp only [List.mem_append, List.mem_cons, List.not_mem_nil, or_false]
        constructor
        · rintro ((h | rfl) | ⟨g, hg, hp⟩)
          · exact Or.inl h
          · exact Or.inr ⟨f, Or.inl rfl, hstat, rfl⟩
          · exact Or.inr ⟨g, Or.inr hg, hp⟩
        · rintro (h | ⟨g, (rfl | hg), hp⟩)
          · exact Or.inl (Or.inl h)
          · exact Or.inl (Or.inr hp.2.symm)
          · exact Or.inr ⟨g, hg, hp⟩

/-- C8: the list `WatchFolders` returns is lexicographically sorted, has no
duplicates, and consists exactly of the parent directories of the watched
names that do not currently stat as directories — for every watched set,
stat behaviour and iteration order the raw watcher may present. -/
theorem c8_watch_folders_sorted_dedup (statOf : String → Option Bool)
    (dirOf : String → String) (watched : List String) :
    (watchFoldersGo statOf dirOf watched).Sorted (· ≤ ·) ∧
    (watchFoldersGo statOf dirOf watched).Nodup ∧
    ∀ d, d ∈ watchFoldersGo statOf dirOf watched ↔
      ∃ f ∈ watched, (statOf f).getD false = false ∧ dirOf f = d := by
  have hperm := List.perm_insertionSort (· ≤ ·)
    (collectDirs statOf dirOf watched [])
  refine ⟨List.sorted_insertionSort _ _, ?_, fun d => ?_⟩
  · exact hperm.symm.nodup
      (collectDirs_nodup statOf dirOf watched [] (List.nodup_nil))
  · rw [watchFoldersGo, hperm.mem_iff, collectDirs_mem]
    simp

/-! ### C6: discovery error handling -/

/-- A filesystem with one root `"/r"` that exists as a directory but whose
contents cannot be read (`os.ReadDir` fails on every path). -/
def fsUnreadable : FileSys :=
  { stat := fun p => if p = "/r" then some true else none,
    readDir := fun _ => none,
    absOf := fun p => p }

/-- A filesystem on which every `os.Stat` fails (no root exists). -/
def fsMissing : FileSys :=
  { stat := fun _ => none, readDir := fun _ => none, absOf := fun p => p }

/-- Options rooting discovery at `"/r"` with no exclusions and subdirectory
traversal enabled. -/
def optsRootR : Options :=
  { rootFolders := ["/r"], folderExclusions := [], includeHidden := false,
    excludeSubdirs := false, followNewFolders := false }

/-- C6 counterexample: with root `"/r"` present but unreadable (its
`os.ReadDir` fails), discovery does **not** fail — the `getFolders` error
is discarded and construction succeeds with the partial result `["/r"]`,
contradicting the claim that an unreadable root makes construction fail
and that no unreadable portion is silently dropped. -/
theorem c6_unreadable_root_not_an_error :
    newGo optsRootR fsUnreadable 5 (fun _ => true) = .ok ["/r"] ∧
    getWatchFoldersF optsRootR fsUnreadable 5 = .ok ["/r"] :=
  ⟨rfl, rfl⟩

/-- C6 (amended): discovery fails iff subdirectory traversal is enabled and
`os.Stat` fails on some root; with `ExcludeSubdirs` set no checks run and
the roots are returned as-is; and a discovery error does propagate and
fail the whole construction. -/
theorem c6_amended_discovery_error_iff (opts : Options) (fs : FileSys)
    (fuel : Nat) :
    (getWatchFoldersF opts fs fuel = .error () ↔
      opts.excludeSubdirs = false ∧ ∃ r ∈ opts.rootFolders, fs.stat r = none) ∧
    (opts.excludeSubdirs = true →
      getWatchFoldersF opts fs fuel = .ok opts.rootFolders) ∧
    ∀ addOk : String → Bool,
      getWatchFoldersF
          { opts with folderExclusions := prepareFolders opts.folderExclusions }
          fs fuel = .error () →
        newGo opts fs fuel addOk = .error () := by
  have key : ∀ (rs acc : List String),
      watchRootsF opts fs fuel rs acc = .error () ↔
        ∃ r ∈ rs, fs.stat r = none := by
    intro rs
    induction rs with
    | nil => intro acc; simp [watchRootsF]
    | cons r rs ih =>
      intro acc
      simp only [watchRootsF]
      cases h : fs.stat r with
      | none => simp [h]
      | some d => rw [ih]; simp [h]
  refine ⟨?_, ?_, ?_⟩
  · rw [getWatchFoldersF]
    split
    · rename_i h
      simp [h]
    · rename_i h
      rw [key, Bool.not_eq_true] at *
      simp [h]
  · intro h
    simp [getWatchFoldersF, h]
  · intro addOk h
    simp [newGo, h]

/-- C6 amended-claim witness: on a filesystem where the root's `os.Stat`
fails, discovery (and hence construction) fails. -/
theorem c6_amended_discovery_error_iff_witness :
    getWatchFoldersF optsRootR fsMissing 5 = .error () ∧
    newGo optsRootR fsMissing 5 (fun _ => true) = .error () :=
  ⟨(c6_amended_discovery_error_iff optsRootR fsMissing 5).1.mpr
      ⟨rfl, "/r", by decide, rfl⟩,
    (c6_amended_discovery_error_iff optsRootR fsMissing 5).2.2 (fun _ => true)
      ((c6_amended_discovery_error_iff
          { optsRootR with
            folderExclusions := prepareFolders optsRootR.folderExclusions }
          fsMissing 5).1.mpr ⟨rfl, "/r", by decide, rfl⟩)⟩

/-! ### Lemmas about the timed single-key semantics -/

/-- The deadline reached after the pending timer has been reset by each
event in turn: `d` if no further event, else the last event's time plus
`D`. -/
def finalDeadline (D d : Nat) : List Nat → Nat
  | [] => d
  | a :: l => finalDeadline D (a + D) l

theorem finalDeadline_eq (D : Nat) (l : List Nat) :
    ∀ a : Nat, finalDeadline D (a + D) l = (a :: l).getLastD 0 + D := by
  induction l with
  | nil => intro a; simp [finalDeadline]
  | cons b l ih =>
    intro a
    rw [finalDeadline, ih b]
    simp [List.getLastD_cons]

theorem gapsLt_gapsFrom (D : Nat) (l : List Nat) :
    ∀ a : Nat, gapsLt D (a :: l) = true → gapsFrom D (a + D) l = true := by
  induction l with
  | nil => intro a _; rfl
  | cons b l ih =>
    intro a h
    simp only [gapsLt, Bool.and_eq_true, decide_eq_true_eq] at h
    simp only [gapsFrom, Bool.and_eq_true, decide_eq_true_eq]
    exact ⟨h.1, ih b h.2⟩

theorem kMono_tail {s : KStep} {tr : List KStep}
    (h : kMono (s :: tr) = true) : kMono tr = true := by
  cases tr with
  | nil => rfl
  | cons b tr =>
    simp only [kMono, Bool.and_eq_true] at h
    exact h.2

theorem kMono_le_evTimes {s : KStep} {tr : List KStep}
    (h : kMono (s :: tr) = true) : ∀ u ∈ evTimes tr, s.time ≤ u := by
  induction tr generalizing s with
  | nil => intro u hu; simp [evTimes] at hu
  | cons b tr ih =>
    simp only [kMono, Bool.and_eq_true, decide_eq_true_eq] at h
    intro u hu
    cases b with
    | ev t =>
      simp only [evTimes, List.mem_cons] at hu
      rcases hu with rfl | hu
      · exact h.1
      · exact le_trans h.1 (ih h.2 u hu)
    | fire t ex =>
      simp only [evTimes] at hu
      exact le_trans h.1 (ih h.2 u hu)

/-- From an empty key state, a trace without events publishes nothing (a
firing would need a pending timer). -/
theorem kRun_none_no_events {D : Nat} :
    ∀ tr : List KStep, kValid D none tr = true → evTimes tr = [] →
      pubTimes tr = [] := by
  intro tr
  induction tr with
  | nil => intro _ _; rfl
  | cons s tr ih =>
    intro hv he
    cases s with
    | ev t => simp [evTimes] at he
    | fire t ex => simp [kValid, kAllowed] at hv

/-- The heart of C1: from a pending deadline `d`, if every remaining event
arrives strictly before the then-current deadline, the trace runs to
completion with exactly one publication, no earlier than the deadline left
by the last event. -/
theorem kRun_pending (D : Nat) :
    ∀ (tr : List KStep) (d : Nat),
      kValid D (some d) tr = true →
      kMono tr = true →
      allFiresExist tr = true →
      kFinal D (some d) tr = none →
      gapsFrom D d (evTimes tr) = true →
      ∃ u, pubTimes tr = [u] ∧ finalDeadline D d (evTimes tr) ≤ u := by
  intro tr
  induction tr with
  | nil => intro d _ _ _ hfin _; simp [kFinal] at hfin
  | cons s tr ih =>
    intro d hv hm hex hfin hgap
    cases s with
    | ev t =>
      simp only [kValid, kApply, kAllowed, Bool.true_and] at hv
      simp only [evTimes, gapsFrom, Bool.and_eq_true, decide_eq_true_eq]
        at hgap
      simp only [kFinal, kApply] at hfin
      simp only [allFiresExist] at hex
      obtain ⟨u, hu, hle⟩ :=
        ih (t + D) hv (kMono_tail hm) hex hfin hgap.2
      exact ⟨u, hu, by simpa [finalDeadline] using hle⟩
    | fire t ex =>
      simp only [kValid, kApply, kAllowed, Bool.and_eq_true,
        decide_eq_true_eq] at hv
      simp only [allFiresExist, Bool.and_eq_true] at hex
      simp only [kFinal, kApply] at hfin
      simp only [evTimes] at hgap ⊢
      have hempty : evTimes tr = [] := by
        cases he : evTimes tr with
        | nil => rfl
        | cons a l =>
          have h1 : d ≤ t := hv.1
          have h2 : t ≤ a := by
            have := kMono_le_evTimes hm a (by rw [he]; exact List.mem_cons_self a l)
            simpa [KStep.time] using this
          rw [he] at hgap
          simp only [gapsFrom, Bool.and_eq_true, decide_eq_true_eq] at hgap
          omega
      have hpub : pubTimes tr = [] :=
        kRun_none_no_events tr hv.2 hempty
      refine ⟨t, ?_, ?_⟩
      · simp [pubTimes, hex.1, hpub]
      · rw [hempty]
        simpa [finalDeadline] using hv.1

/-- C1: if `N ≥ 1` events for one debounce key arrive with consecutive
gaps strictly below the settling duration `D`, then over any complete run
(monotone instants, every firing at or after its deadline, the key settled
at the end, the path present on disk at each firing) exactly one
notification is published for that key, and no earlier than `D` after the
last event. -/
theorem c1_single_notification_after_settling (D : Nat) (tr : List KStep)
    (hval : kValid D none tr = true)
    (hmono : kMono tr = true)
    (hex : allFiresExist tr = true)
    (hfin : kFinal D none tr = none)
    (hgap : gapsLt D (evTimes tr) = true)
    (hne : evTimes tr ≠ []) :
    ∃ u, pubTimes tr = [u] ∧ (evTimes tr).getLastD 0 + D ≤ u := by
  cases tr with
  | nil => simp [evTimes] at hne
  | cons s tr =>
    cases s with
    | fire t ex => simp [kValid, kAllowed] at hval
    | ev t =>
      simp only [kValid, kApply, kAllowed, Bool.true_and] at hval
      simp only [kFinal, kApply] at hfin
      simp only [allFiresExist] at hex
      simp only [evTimes] at hgap hne ⊢
      obtain ⟨u, hu, hle⟩ :=
        kRun_pending D tr (t + D) hval (kMono_tail hmono) hex hfin
          (gapsLt_gapsFrom D (evTimes tr) t hgap)
      refine ⟨u, by simpa [pubTimes] using hu, ?_⟩
      rw [← finalDeadline_eq]
      exact hle

/-- C1 witness: two events at instants 0 and 1 with `D = 2` (gap `1 < 2`),
the timer firing at instant 3 with the path still on disk: exactly one
publication, at `3 ≥ 1 + 2`. -/
theorem c1_single_notification_after_settling_witness :
    ∃ u, pubTimes [KStep.ev 0, KStep.ev 1, KStep.fire 3 true] = [u] ∧
      (evTimes [KStep.ev 0, KStep.ev 1, KStep.fire 3 true]).getLastD 0 + 2 ≤
        u :=
  c1_single_notification_after_settling 2
    [KStep.ev 0, KStep.ev 1, KStep.fire 3 true]
    (by decide) (by decide) (by decide) (by decide) (by decide) (by decide)

/-! ### Association-list lemmas for the debounce maps -/

theorem aKeys_nil {α : Type} : aKeys ([] : List (String × α)) = [] := rfl

theorem aKeys_cons {α : Type} (k : String) (v : α) (m : List (String × α)) :
    aKeys ((k, v) :: m) = k :: aKeys m := rfl

theorem aLookup_eq_none {α : Type} (m : List (String × α)) (q : String) :
    aLookup m q = none ↔ q ∉ aKeys m := by
  induction m with
  | nil => simp [aLookup, aKeys]
  | cons kv m ih =>
    obtain ⟨k, v⟩ := kv
    simp only [aLookup, aKeys_cons, List.mem_cons]
    by_cases h : k = q
    · subst h; simp
    · rw [if_neg h, ih]
      constructor
      · intro hn
        rintro (hc | hc)
        · exact h hc.symm
        · exact hn hc
      · intro hn hc
        exact hn (Or.inr hc)

theorem mem_aKeys_of_aLookup_some {α : Type} {m : List (String × α)}
    {q : String} {v : α} (h : aLookup m q = some v) : q ∈ aKeys m := by
  by_contra hq
  rw [← aLookup_eq_none] at hq
  rw [h] at hq
  exact absurd hq (by simp)

theorem aKeys_aInsert_of_mem {α : Type} {m : List (String × α)} {q : String}
    (v : α) (h : q ∈ aKeys m) : aKeys (aInsert m q v) = aKeys m := by
  induction m with
  | nil => simp [aKeys] at h
  | cons kv m ih =>
    obtain ⟨k, w⟩ := kv
    rw [aKeys_cons, List.mem_cons] at h
    by_cases hk : k = q
    · subst hk
      simp only [aInsert, if_true, aKeys_cons]
    · rcases h with h | h
      · exact absurd h.symm hk
      · simp only [aInsert, if_neg hk, aKeys_cons, ih h]

theorem aKeys_aInsert_of_not_mem {α : Type} {m : List (String × α)}
    {q : String} (v : α) (h : q ∉ aKeys m) :
    aKeys (aInsert m q v) = aKeys m ++ [q] := by
  induction m with
  | nil => simp [aInsert, aKeys]
  | cons kv m ih =>
    obtain ⟨k, w⟩ := kv
    rw [aKeys_cons, List.mem_cons, not_or] at h
    simp only [aInsert, if_neg (fun hc : k = q => h.1 hc.symm), aKeys_cons,
      ih h.2, List.cons_append]

theorem mem_aKeys_aErase {α : Type} (m : List (String × α)) (q p : String) :
    p ∈ aKeys (aErase m q) ↔ p ∈ aKeys m ∧ p ≠ q := by
  induction m with
  | nil => simp [aErase, aKeys]
  | cons kv m ih =>
    obtain ⟨k, w⟩ := kv
    by_cases hk : k = q
    · subst hk
      simp only [aErase, if_true]
      rw [ih]
      simp only [aKeys_cons, List.mem_cons]
      constructor
      · rintro ⟨h1, h2⟩; exact ⟨Or.inr h1, h2⟩
      · rintro ⟨h1 | h1, h2⟩
        · exact absurd h1 h2
        · exact ⟨h1, h2⟩
    · simp only [aErase, if_neg hk, aKeys_cons, List.mem_cons, ih]
      constructor
      · rintro (rfl | ⟨h1, h2⟩)
        · exact ⟨Or.inl rfl, fun hc => hk (hc ▸ rfl)⟩
        · exact ⟨Or.inr h1, h2⟩
      · rintro ⟨rfl | h1, h2⟩
        · exact Or.inl rfl
        · exact Or.inr ⟨h1, h2⟩

theorem nodup_aKeys_aErase {α : Type} {m : List (String × α)} (q : String)
    (h : (aKeys m).Nodup) : (aKeys (aErase m q)).Nodup := by
  induction m with
  | nil => simp [aErase, aKeys]
  | cons kv m ih =>
    obtain ⟨k, w⟩ := kv
    rw [aKeys_cons, List.nodup_cons] at h
    by_cases hk : k = q
    · subst hk
      simp only [aErase, if_true]
      exact ih h.2
    · simp only [aErase, if_neg hk, aKeys_cons, List.nodup_cons]
      exact ⟨fun hc => h.1 ((mem_aKeys_aErase m q k).1 hc).1, ih h.2⟩

/-! ### The at-most-one-timer invariant -/

/-- The invariant tying the two debounce maps to the live timer
goroutines: each map has no duplicate path keys, no two live goroutines
wait on the same `(map, path)` key, and a goroutine for a key is live
exactly when that key is in its map. -/
def InvC (mf md : List (String × Nat)) (live : List (Bool × String)) : Prop :=
  (aKeys mf).Nodup ∧ (aKeys md).Nodup ∧ live.Nodup ∧
  (∀ p, (false, p) ∈ live ↔ p ∈ aKeys mf) ∧
  (∀ p, (true, p) ∈ live ↔ p ∈ aKeys md)

/-- `InvC` on an engine state. -/
def EngineInv (s : EngineState) : Prop :=
  InvC s.fileDebounce s.folderDebounce s.liveTimers

theorem debounceItem_invC_file (D t : Nat) (path : String)
    {mf md : List (String × Nat)} {live : List (Bool × String)}
    (h : InvC mf md live) :
    InvC (debounceItem D t false path mf live).1 md
      (debounceItem D t false path mf live).2 := by
  obtain ⟨h1, h2, h3, h4, h5⟩ := h
  unfold debounceItem
  cases hlk : aLookup mf path with
  | some v =>
    have hmem := mem_aKeys_of_aLookup_some hlk
    simp only
    rw [InvC, aKeys_aInsert_of_mem _ hmem]
    exact ⟨h1, h2, h3, h4, h5⟩
  | none =>
    have hmem : path ∉ aKeys mf := (aLookup_eq_none mf path).1 hlk
    simp only
    rw [InvC, aKeys_aInsert_of_not_mem _ hmem]
    refine ⟨?_, h2, ?_, ?_, ?_⟩
    · simp only [List.nodup_append, List.nodup_singleton]
      exact ⟨h1, trivial, by simpa using fun hc => hmem hc⟩
    · rw [List.nodup_cons]
      exact ⟨fun hc => hmem ((h4 path).1 hc), h3⟩
    · intro p
      by_cases hp : p = path
      · subst hp; simp
      · simp only [List.mem_cons, List.mem_append, List.mem_singleton,
          Prod.mk.injEq]
        rw [← h4 p]
        simp [hp]
    · intro p
      simp only [List.mem_cons, Prod.mk.injEq]
      rw [← h5 p]
      simp

theorem debounceItem_invC_folder (D t : Nat) (path : String)
    {mf md : List (String × Nat)} {live : List (Bool × String)}
    (h : InvC mf md live) :
    InvC mf (debounceItem D t true path md live).1
      (debounceItem D t true path md live).2 := by
  obtain ⟨h1, h2, h3, h4, h5⟩ := h
  unfold debounceItem
  cases hlk : aLookup md path with
  | some v =>
    have hmem := mem_aKeys_of_aLookup_some hlk
    simp only
    rw [InvC, aKeys_aInsert_of_mem _ hmem]
    exact ⟨h1, h2, h3, h4, h5⟩
  | none =>
    have hmem : path ∉ aKeys md := (aLookup_eq_none md path).1 hlk
    simp only
    rw [InvC, aKeys_aInsert_of_not_mem _ hmem]
    refine ⟨h1, ?_, ?_, ?_, ?_⟩
    · simp only [List.nodup_append, List.nodup_singleton]
      exact ⟨h2, trivial, by simpa using fun hc => hmem hc⟩
    · rw [List.nodup_cons]
      exact ⟨fun hc => hmem ((h5 path).1 hc), h3⟩
    · intro p
      simp only [List.mem_cons, Prod.mk.injEq]
      rw [← h4 p]
      simp
    · intro p
      by_cases hp : p = path
      · subst hp; simp
      · simp only [List.mem_cons, List.mem_append, List.mem_singleton,
          Prod.mk.injEq]
        rw [← h5 p]
        simp [hp]

theorem fire_invC_file {mf md : List (String × Nat)}
    {live : List (Bool × String)} (p : String) (h : InvC mf md live) :
    InvC (aErase mf p) md (live.filter (fun x => x ≠ (false, p))) := by
  obtain ⟨h1, h2, h3, h4, h5⟩ := h
  refine ⟨nodup_aKeys_aErase p h1, h2, List.Nodup.filter _ h3, ?_, ?_⟩
  · intro q
    simp only [List.mem_filter, decide_eq_true_eq, ne_eq, Prod.mk.injEq,
      not_and, mem_aKeys_aErase]
    constructor
    · rintro ⟨hm, hne⟩
      exact ⟨(h4 q).1 hm, fun hq => by simp [hq] at hne⟩
    · rintro ⟨hm, hne⟩
      exact ⟨(h4 q).2 hm, fun _ hq => hne hq⟩
  · intro q
    simp only [List.mem_filter, decide_eq_true_eq, ne_eq, Prod.mk.injEq,
      not_and]
    constructor
    · rintro ⟨hm, _⟩
      exact (h5 q).1 hm
    · intro hm
      exact ⟨(h5 q).2 hm, fun hc => absurd hc (by simp)⟩

theorem fire_invC_folder {mf md : List (String × Nat)}
    {live : List (Bool × String)} (p : String) (h : InvC mf md live) :
    InvC mf (aErase md p) (live.filter (fun x => x ≠ (true, p))) := by
  obtain ⟨h1, h2, h3, h4, h5⟩ := h
  refine ⟨h1, nodup_aKeys_aErase p h2, List.Nodup.filter _ h3, ?_, ?_⟩
  · intro q
    simp only [List.mem_filter, decide_eq_true_eq, ne_eq, Prod.mk.injEq,
      not_and]
    constructor
    · rintro ⟨hm, _⟩
      exact (h4 q).1 hm
    · intro hm
      exact ⟨(h4 q).2 hm, fun hc => absurd hc (by simp)⟩
  · intro q
    simp only [List.mem_filter, decide_eq_true_eq, ne_eq, Prod.mk.injEq,
      not_and, mem_aKeys_aErase]
    constructor
    · rintro ⟨hm, hne⟩
      exact ⟨(h5 q).1 hm, fun hq => by simp [hq] at hne⟩
    · rintro ⟨hm, hne⟩
      exact ⟨(h5 q).2 hm, fun _ hq => hne hq⟩

theorem debounceItem_keys_superset (D t : Nat) (f : Bool) (path p : String)
    (m : List (String × Nat)) (live : List (Bool × String))
    (h : p ∈ aKeys m) : p ∈ aKeys (debounceItem D t f path m live).1 := by
  unfold debounceItem
  cases hlk : aLookup m path with
  | some v =>
    simpa [aKeys_aInsert_of_mem _ (mem_aKeys_of_aLookup_some hlk)] using h
  | none =>
    rw [show (aInsert m path (t + D), (f, path) :: live).1 =
      aInsert m path (t + D) from rfl,
      aKeys_aInsert_of_not_mem _ ((aLookup_eq_none m path).1 hlk)]
    simp [h]

/-- C4: in each debounce map every path has at most one live timer at any
instant.  Formally: the at-most-one-timer invariant `EngineInv` — unique
map keys, no two live timer goroutines for the same `(map, path)` key, and
live goroutines in bijection with map entries — holds initially and is
preserved by every engine step (an event for a mapped path resets the
existing timer, `debounceItem`'s `some` branch, instead of spawning a
second goroutine); moreover an event step never removes a map entry, so
entries disappear only when their timer fires. -/
theorem c4_at_most_one_live_timer :
    EngineInv initEngineState ∧
    ∀ (env : GoEnv) (opts : Options) (D : Nat) (s : EngineState) (st : GStep),
      EngineInv s → gAllowed s st = true →
      EngineInv (gApply env opts D s st).1 ∧
      ∀ t e, st = GStep.ev t e →
        (∀ p, p ∈ aKeys s.fileDebounce →
          p ∈ aKeys (gApply env opts D s st).1.fileDebounce) ∧
        (∀ p, p ∈ aKeys s.folderDebounce →
          p ∈ aKeys (gApply env opts D s st).1.folderDebounce) := by
  constructor
  · exact ⟨List.nodup_nil, List.nodup_nil, List.nodup_nil,
      fun p => by simp [initEngineState, aKeys],
      fun p => by simp [initEngineState, aKeys]⟩
  · intro env opts D s st hInv hAll
    cases st with
    | ev t e =>
      have hstate : (gApply env opts D s (GStep.ev t e)).1 =
          (debounceGo env opts D t s e).1 := rfl
      by_cases hpath : env.absOf (getWatcherPath e.path) = ""
      · have hid : (debounceGo env opts D t s e).1 = s := by
          rw [debounceGo, if_pos hpath]
        rw [hstate, hid]
        exact ⟨hInv, fun _ _ _ => ⟨fun _ hp => hp, fun _ hp => hp⟩⟩
      · cases hdir : e.isDir
        · have hid : (debounceGo env opts D t s e).1 =
              { s with
                fileDebounce := (debounceItem D t false
                  (env.absOf (getWatcherPath e.path)) s.fileDebounce
                  s.liveTimers).1,
                folderDebounce := (debounceItem D t true
                  (env.dirOf (env.absOf (getWatcherPath e.path)))
                  s.folderDebounce
                  (debounceItem D t false (env.absOf (getWatcherPath e.path))
                    s.fileDebounce s.liveTimers).2).1,
                liveTimers := (debounceItem D t true
                  (env.dirOf (env.absOf (getWatcherPath e.path)))
                  s.folderDebounce
                  (debounceItem D t false (env.absOf (getWatcherPath e.path))
                    s.fileDebounce s.liveTimers).2).2 } := by
            rw [debounceGo, if_neg hpath]
            simp only [hdir, Bool.false_eq_true, if_false]
          rw [hstate, hid]
          refine ⟨?_, fun _ _ _ => ⟨fun p hp => ?_, fun p hp => ?_⟩⟩
          · exact debounceItem_invC_folder D t _
              (debounceItem_invC_file D t _ hInv)
          · exact debounceItem_keys_superset D t false _ p _ _ hp
          · exact debounceItem_keys_superset D t true _ p _ _ hp
        · have hid : (debounceGo env opts D t s e).1 =
              { s with
                folderDebounce := (debounceItem D t true
                  (env.absOf (getWatcherPath e.path)) s.folderDebounce
                  s.liveTimers).1,
                liveTimers := (debounceItem D t true
                  (env.absOf (getWatcherPath e.path)) s.folderDebounce
                  s.liveTimers).2 } := by
            rw [debounceGo, if_neg hpath]
            simp only [hdir, if_true]
          rw [hstate, hid]
          refine ⟨?_, fun _ _ _ => ⟨fun p hp => ?_, fun p hp => ?_⟩⟩
          · exact debounceItem_invC_folder D t _ hInv
          · exact hp
          · exact debounceItem_keys_superset D t true _ p _ _ hp
    | fire f p =>
      refine ⟨?_, fun t e he => absurd he (by simp)⟩
      cases f
      · have hid : (gApply env opts D s (GStep.fire false p)).1 =
            { s with
              fileDebounce := aErase s.fileDebounce p,
              liveTimers := s.liveTimers.filter (fun x => x ≠ (false, p)) } := by
          simp only [gApply, waitDebounceTimer, Bool.false_eq_true, if_false]
        rw [hid]
        exact fire_invC_file p hInv
      · have hid : (gApply env opts D s (GStep.fire true p)).1 =
            { s with
              folderDebounce := aErase s.folderDebounce p,
              liveTimers := s.liveTimers.filter (fun x => x ≠ (true, p)) } := by
          simp only [gApply, waitDebounceTimer, if_true]
        rw [hid]
        exact fire_invC_folder p hInv

/-- C4 witness: the preservation half applied to the initial state and a
concrete file event, using the initial-state half for the invariant. -/
theorem c4_at_most_one_live_timer_witness :
    EngineInv (gApply envW optsW 2 initEngineState
      (GStep.ev 0 ⟨"/a/f", Op.write, false⟩)).1 :=
  (c4_at_most_one_live_timer.2 envW optsW 2 initEngineState
    (GStep.ev 0 ⟨"/a/f", Op.write, false⟩)
    c4_at_most_one_live_timer.1 rfl).1

end Gobounce
